import Mathlib

/-!
Verification of the motion-alignment pipeline (`scripts/alignment.py`).

Numeric values are modelled as rationals (`ℚ`); a NaN / missing cell is
`none : Option ℚ`.  A long-format pose table is a `List PoseRow`; the wide
per-second frame is a `List WideRow` whose `cells` field is the sparse
mapping keypoint-name ↦ (x, y, confidence) for the cells actually present
at that second (a cell absent from the list is a NaN cell of the pivot).
-/

attribute [local semireducible] Rat.inv Rat.mul Rat.add Rat.sub Rat.ofScientific

/-- One row of the long-format input CSV
(`second, person_index, detection_confidence, keypoint_index, keypoint_name, x, y, keypoint_confidence`). -/
structure PoseRow where
  second : ℤ
  person_index : ℤ
  detection_confidence : ℚ
  keypoint_index : ℤ
  keypoint_name : String
  x : ℚ
  y : ℚ
  keypoint_confidence : ℚ
deriving DecidableEq, Repr

/-- One row of the wide per-second frame produced by `to_wide_per_second`:
`cells` maps a keypoint name to its `(x, y, conf)` columns at this second. -/
structure WideRow where
  second : ℤ
  person_index : ℤ
  detection_confidence : ℚ
  cells : List (String × (ℚ × ℚ × ℚ))
deriving DecidableEq, Repr

/-- The `(second, keypoint_name)` key of every row; `df.pivot` demands these
keys be pairwise distinct and raises `ValueError` otherwise. -/
def pairKeys (df : List PoseRow) : List (ℤ × String) :=
  df.map fun r => (r.second, r.keypoint_name)

/-- Distinct seconds of the table in ascending order (the pivot's index). -/
def secondsSorted (df : List PoseRow) : List ℤ :=
  ((df.map (·.second)).dedup).insertionSort (· ≤ ·)

/-- The wide row for second `s`: `person_index` and `detection_confidence`
come from the first table row at that second (`groupby("second").first()`),
cells from every `(s, keypoint)` observation. -/
def wideRowAt (df : List PoseRow) (s : ℤ) : WideRow :=
  { second := s
  , person_index := ((df.find? (fun r => r.second == s)).map (·.person_index)).getD 0
  , detection_confidence :=
      ((df.find? (fun r => r.second == s)).map (·.detection_confidence)).getD 0
  , cells := df.filterMap fun r =>
      if r.second == s then some (r.keypoint_name, (r.x, r.y, r.keypoint_confidence))
      else none }

/-- The wide rows, one per distinct second, ascending. -/
def to_wide_rows (df : List PoseRow) : List WideRow :=
  (secondsSorted df).map (wideRowAt df)

/-- `to_wide_per_second`: pivoting raises (`none`) when some
`(second, keypoint_name)` pair is duplicated, else the wide frame. -/
def to_wide_per_second (df : List PoseRow) : Option (List WideRow) :=
  if (pairKeys df).Nodup then some (to_wide_rows df) else none

/-- Look up the `(x, y, conf)` cell of keypoint `kp` in a wide row. -/
def cellOf (w : WideRow) (kp : String) : Option (ℚ × ℚ × ℚ) :=
  (w.cells.find? (fun c => c.1 == kp)).map (·.2)

/-- Numerator `np.nansum(X * W)` of `conf_weighted_avg`: masked-out or
absent cells contribute `0`. -/
def cwaNum (w : WideRow) (head_kps : List String) (t : ℚ) : ℚ :=
  (head_kps.map fun kp =>
    match cellOf w kp with
    | some (x, _, c) => if t ≤ c then x * c else 0
    | none => 0).sum

/-- Denominator `np.sum(W)` of `conf_weighted_avg`. -/
def cwaDen (w : WideRow) (head_kps : List String) (t : ℚ) : ℚ :=
  (head_kps.map fun kp =>
    match cellOf w kp with
    | some (_, _, c) => if t ≤ c then c else 0
    | none => 0).sum

/-- `conf_weighted_avg` head x at one second:
`np.where(den > 0, num / den, np.nan)`. -/
def conf_weighted_avg_at (w : WideRow) (head_kps : List String) (t : ℚ) : Option ℚ :=
  if 0 < cwaDen w head_kps t then some (cwaNum w head_kps t / cwaDen w head_kps t) else none

/-- The head cells passing the confidence mask `C >= t`, as `(x, conf)` pairs
in `head_kps` order. -/
def qualifyingCells (w : WideRow) (head_kps : List String) (t : ℚ) : List (ℚ × ℚ) :=
  head_kps.filterMap fun kp =>
    match cellOf w kp with
    | some (x, _, c) => if t ≤ c then some (x, c) else none
    | none => none

/-- `simple_avg` head x at one second: `np.nanmean` of the masked xs. -/
def simple_avg_at (w : WideRow) (head_kps : List String) (t : ℚ) : Option ℚ :=
  let q := qualifyingCells w head_kps t
  if q = [] then none else some ((q.map (·.1)).sum / (q.length : ℚ))

/-- `nose` head x at one second: `nose_x` where `nose_conf >= t`, else NaN. -/
def nose_at (w : WideRow) (t : ℚ) : Option ℚ :=
  match cellOf w "nose" with
  | some (x, _, c) => if t ≤ c then some x else none
  | none => none

/-- `head_x_series`: one optional head-x per wide row; an unknown method
raises `ValueError` (`none`). -/
def head_x_series (wide : List WideRow) (head_kps : List String) (t : ℚ)
    (method : String) : Option (List (Option ℚ)) :=
  if method = "nose" then some (wide.map fun w => nose_at w t)
  else if method = "simple_avg" then some (wide.map fun w => simple_avg_at w head_kps t)
  else if method = "conf_weighted_avg" then
    some (wide.map fun w => conf_weighted_avg_at w head_kps t)
  else none

/-- The defined values of a series, in order (`Series.dropna`). -/
def validVals (hx : List (Option ℚ)) : List ℚ := hx.filterMap id

/-- Minimum of a value list (`Series.min`); junk `0` on the empty list,
which no caller reaches. -/
def listMin : List ℚ → ℚ
  | [] => 0
  | v :: vs => vs.foldl min v

/-- Maximum of a value list (`Series.max`). -/
def listMax : List ℚ → ℚ
  | [] => 0
  | v :: vs => vs.foldl max v

/-- `np.isclose` with its default `rtol = 1e-5`, `atol = 1e-8`:
`|a − b| ≤ atol + rtol·|b|`. -/
def npIsClose (a b : ℚ) : Bool :=
  |a - b| ≤ 1 / 100000000 + |b| / 100000

/-- `progress_between_extremes`: `ValueError` (`none`) when no valid value
exists or the extremes are `np.isclose`; otherwise the whole series rescaled
by `(x − x_min) / (x_max − x_min)` together with the extremes. -/
def progress_between_extremes (hx : List (Option ℚ)) :
    Option (List (Option ℚ) × ℚ × ℚ) :=
  match validVals hx with
  | [] => none
  | v :: vs =>
    let x_min := listMin (v :: vs)
    let x_max := listMax (v :: vs)
    if npIsClose x_max x_min then none
    else some (hx.map (Option.map fun x => (x - x_min) / (x_max - x_min)), x_min, x_max)

/-- Extended `≤` on `Option ℚ` where `none` plays `np.inf`
(the NaN distances are replaced by `inf` before `argmin`). -/
def oLE : Option ℚ → Option ℚ → Bool
  | _, none => true
  | none, some _ => false
  | some a, some b => decide (a ≤ b)

/-- `np.argmin`: index of the first minimal element (`0` on the empty list,
where NumPy raises instead; no caller reaches it). -/
def argmin : List (Option ℚ) → ℕ
  | [] => 0
  | v :: rest => if oLE v (rest.getD (argmin rest) none) then 0 else argmin rest + 1

/-- The `|progress − s|` distance array with NaN kept as `none` (= `inf`). -/
def diffsTo (p : List (Option ℚ)) (s : ℚ) : List (Option ℚ) :=
  p.map (Option.map fun v => |v - s|)

/-- The body of `choose_seconds_for_steps` for one step `s`: the second at
the argmin of the distances when that distance is `≤ tolerance`, else `None`. -/
def chooseSecondForStep (sec : List ℤ) (p : List (Option ℚ)) (s : ℚ)
    (tolerance : ℚ) : Option ℤ :=
  let diffs := diffsTo p s
  let j := argmin diffs
  match diffs.getD j none with
  | some d => if d ≤ tolerance then some (sec.getD j 0) else none
  | none => none

/-- `choose_seconds_for_steps`: the step ↦ chosen-second mapping. -/
def choose_seconds_for_steps (sec : List ℤ) (p : List (Option ℚ))
    (steps : List ℚ) (tolerance : ℚ) : List (ℚ × Option ℤ) :=
  steps.map fun s => (s, chooseSecondForStep sec p s tolerance)

/-- Python `round` to an integer: nearest, ties to even. -/
def pyRound (q : ℚ) : ℤ :=
  let f := q.floor
  let r := q - (f : ℚ)
  if r < 1 / 2 then f
  else if 1 / 2 < r then f + 1
  else if Even f then f else f + 1

/-- Python `round(q, 10)`. -/
def round10 (q : ℚ) : ℚ := ((pyRound (q * 10 ^ 10) : ℤ) : ℚ) / 10 ^ 10

/-- The raw checkpoint list of `main`:
`steps = [round(i*step, 10) for i in range(int(round(1.0/step)) + 1)]`. -/
def stepsBase (step : ℚ) : List ℚ :=
  (List.range ((pyRound (1 / step)).toNat + 1)).map fun i : ℕ => round10 ((i : ℚ) * step)

/-- `if steps[-1] != 1.0: steps.append(1.0)`. -/
def stepsWithOne (step : ℚ) : List ℚ :=
  if (stepsBase step).getLast? = some 1 then stepsBase step else stepsBase step ++ [1]

/-- The checkpoint list of `main`: the raw list, `1.0` appended when the
last entry differs from it, then `sorted(set(steps))`. -/
def genSteps (step : ℚ) : List ℚ :=
  ((stepsWithOne step).dedup).insertionSort (· ≤ ·)

/-- One output row of the aligned CSV. -/
structure AlignedRow where
  progress_step : ℚ
  file1_second : Option ℤ
  file1_head_x : Option ℚ
  file1_xmin : ℚ
  file1_xmax : ℚ
  file1_kp : String
  file1_x : Option ℚ
  file1_y : Option ℚ
  file1_kp_conf : Option ℚ
  file2_second : Option ℤ
  file2_head_x : Option ℚ
  file2_xmin : ℚ
  file2_xmax : ℚ
  file2_kp : String
  file2_x : Option ℚ
  file2_y : Option ℚ
  file2_kp_conf : Option ℚ
deriving DecidableEq, Repr

/-- `extract_keypoints_at_second` followed by the reindex on `kp_names`:
the `(x, y, conf)` of keypoint `kp` at the chosen second, NaN (`none`)
when the checkpoint is unmatched or the keypoint is absent there. -/
def kpFieldsAt (df : List PoseRow) (secOpt : Option ℤ) (kp : String) :
    Option (ℚ × ℚ × ℚ) :=
  match secOpt with
  | none => none
  | some sec =>
    ((df.filter (fun r => r.second == sec)).find? (fun r => r.keypoint_name == kp)).map
      fun r => (r.x, r.y, r.keypoint_confidence)

/-- The `head_x` diagnostic at a chosen second: the head series value at the
wide row of that second; `float(0 and …) = 0.0` when the second is absent
from the wide frame (unreachable for seconds the matcher returned). -/
def headXAt (wide : List WideRow) (hx : List (Option ℚ)) (secOpt : Option ℤ) :
    Option ℚ :=
  match secOpt with
  | none => none
  | some sec =>
    match wide.findIdx? (fun w => w.second == sec) with
    | some i => hx.getD i none
    | none => some 0

/-- `chosen[s]` on the step ↦ second dictionary. -/
def dictGet (c : List (ℚ × Option ℤ)) (s : ℚ) : Option ℤ :=
  ((c.find? (fun pr => pr.1 == s)).map Prod.snd).getD none

/-- The sorted common keypoint vocabulary
`sorted(kp_set1.intersection(kp_set2))`. -/
def commonKpNames (df1 df2 : List PoseRow) : List String :=
  (((df1.map (·.keypoint_name)).dedup).filter
    (fun k => k ∈ df2.map (·.keypoint_name))).insertionSort (· ≤ ·)

/-- The row-building loop of `main`: one `AlignedRow` per
`(step, keypoint)` pair, in that nesting order. -/
def emitRows (df1 df2 : List PoseRow) (wide1 wide2 : List WideRow)
    (hx1 hx2 : List (Option ℚ)) (x1min x1max x2min x2max : ℚ)
    (kp_names : List String) (steps : List ℚ)
    (chosen1 chosen2 : List (ℚ × Option ℤ)) : List AlignedRow :=
  steps.flatMap fun s =>
    let sec1 := dictGet chosen1 s
    let sec2 := dictGet chosen2 s
    kp_names.map fun kp =>
      { progress_step := s
      , file1_second := sec1
      , file1_head_x := headXAt wide1 hx1 sec1
      , file1_xmin := x1min
      , file1_xmax := x1max
      , file1_kp := kp
      , file1_x := (kpFieldsAt df1 sec1 kp).map (·.1)
      , file1_y := (kpFieldsAt df1 sec1 kp).map (·.2.1)
      , file1_kp_conf := (kpFieldsAt df1 sec1 kp).map (·.2.2)
      , file2_second := sec2
      , file2_head_x := headXAt wide2 hx2 sec2
      , file2_xmin := x2min
      , file2_xmax := x2max
      , file2_kp := kp
      , file2_x := (kpFieldsAt df2 sec2 kp).map (·.1)
      , file2_y := (kpFieldsAt df2 sec2 kp).map (·.2.1)
      , file2_kp_conf := (kpFieldsAt df2 sec2 kp).map (·.2.2) }

/-- The configuration surface of `main` relevant to alignment. -/
structure Config where
  step : ℚ
  tolerance : ℚ
  head_kps : List String
  kp_conf : ℚ
  head_method : String
deriving DecidableEq, Repr

/-- `main` as a pure function from the two tables and the configuration to
the emitted rows; every fatal condition (empty `--head-kps`, `--step`
outside `(0,1]`, pivot failure, unknown method, degenerate range, empty
keypoint intersection) is `none`. -/
def mainAlign (df1 df2 : List PoseRow) (cfg : Config) : Option (List AlignedRow) :=
  if cfg.head_kps = [] then none
  else if ¬ (0 < cfg.step ∧ cfg.step ≤ 1) then none
  else
    let steps := genSteps cfg.step
    match to_wide_per_second df1, to_wide_per_second df2 with
    | some wide1, some wide2 =>
      match head_x_series wide1 cfg.head_kps cfg.kp_conf cfg.head_method,
            head_x_series wide2 cfg.head_kps cfg.kp_conf cfg.head_method with
      | some hx1, some hx2 =>
        match progress_between_extremes hx1, progress_between_extremes hx2 with
        | some (p1, x1min, x1max), some (p2, x2min, x2max) =>
          let chosen1 :=
            choose_seconds_for_steps (wide1.map (·.second)) p1 steps cfg.tolerance
          let chosen2 :=
            choose_seconds_for_steps (wide2.map (·.second)) p2 steps cfg.tolerance
          let kp_names := commonKpNames df1 df2
          if kp_names = [] then none
          else some (emitRows df1 df2 wide1 wide2 hx1 hx2
                      x1min x1max x2min x2max kp_names steps chosen1 chosen2)
        | _, _ => none
      | _, _ => none
    | _, _ => none

/-! ### Properties of the extended order and `argmin` -/

theorem oLE_refl (a : Option ℚ) : oLE a a = true := by
  cases a <;> simp [oLE]

theorem oLE_none (a : Option ℚ) : oLE a none = true := by
  cases a <;> simp [oLE]

theorem oLE_total (a b : Option ℚ) : oLE a b = true ∨ oLE b a = true := by
  cases a <;> cases b <;> simp [oLE]
  exact le_total _ _

theorem oLE_trans {a b c : Option ℚ} (h1 : oLE a b = true) (h2 : oLE b c = true) :
    oLE a c = true := by
  cases a <;> cases b <;> cases c <;> simp [oLE] at * <;> try exact le_trans h1 h2

theorem argmin_cons (v : Option ℚ) (rest : List (Option ℚ)) :
    argmin (v :: rest) =
      if oLE v (rest.getD (argmin rest) none) then 0 else argmin rest + 1 := rfl

theorem argmin_lt_length : ∀ (l : List (Option ℚ)), l ≠ [] → argmin l < l.length
  | [], h => absurd rfl h
  | v :: rest, _ => by
    rw [argmin_cons]
    by_cases h : oLE v (rest.getD (argmin rest) none) = true
    · rw [if_pos h]
      simp
    · have hne : rest.getD (argmin rest) none ≠ none := by
        intro hn
        rw [hn, oLE_none] at h
        exact h rfl
      have hlt : argmin rest < rest.length := by
        by_contra hge
        exact hne (List.getD_eq_default _ _ (Nat.le_of_not_lt hge))
      rw [if_neg h, List.length_cons]
      omega

theorem argmin_le : ∀ (l : List (Option ℚ)) (i : ℕ), i < l.length →
    oLE (l.getD (argmin l) none) (l.getD i none) = true
  | [], i, hi => absurd hi (by simp)
  | v :: rest, i, hi => by
    rw [argmin_cons]
    by_cases h : oLE v (rest.getD (argmin rest) none) = true
    · rw [if_pos h]
      match i with
      | 0 => exact oLE_refl v
      | i + 1 =>
        rw [List.getD_cons_zero, List.getD_cons_succ]
        exact oLE_trans h (argmin_le rest i (by simpa using hi))
    · rw [if_neg h, List.getD_cons_succ]
      match i with
      | 0 =>
        rw [List.getD_cons_zero]
        rcases oLE_total v (rest.getD (argmin rest) none) with h1 | h2
        · exact absurd h1 h
        · exact h2
      | i + 1 =>
        rw [List.getD_cons_succ]
        exact argmin_le rest i (by simpa using hi)

theorem argmin_first : ∀ (l : List (Option ℚ)) (i : ℕ), i < argmin l →
    oLE (l.getD i none) (l.getD (argmin l) none) = false
  | [], i, hi => by simp [argmin] at hi
  | v :: rest, i, hi => by
    rw [argmin_cons] at hi ⊢
    by_cases h : oLE v (rest.getD (argmin rest) none) = true
    · rw [if_pos h] at hi
      omega
    · rw [if_neg h] at hi ⊢
      rw [List.getD_cons_succ]
      match i with
      | 0 =>
        rw [List.getD_cons_zero]
        exact Bool.not_eq_true _ |>.mp h
      | i + 1 =>
        rw [List.getD_cons_succ]
        exact argmin_first rest i (by omega)

theorem diffsTo_getD (p : List (Option ℚ)) (s : ℚ) (i : ℕ) :
    (diffsTo p s).getD i none = Option.map (fun v => |v - s|) (p.getD i none) := by
  simp only [diffsTo, List.getD_eq_getElem?_getD, List.getElem?_map]
  cases p[i]? <;> simp

theorem diffsTo_length (p : List (Option ℚ)) (s : ℚ) :
    (diffsTo p s).length = p.length := by
  simp [diffsTo]

/-! ### C1: the checkpoint matcher -/

/-- C1: on a progress series with at least one defined value and a finite
tolerance `τ ≥ 0`, `choose_seconds_for_steps` picks for checkpoint `s` the
second at the first index of minimal `|progress − s|`; that index carries a
defined value, every earlier defined value is strictly farther, and the
checkpoint is unmatched exactly when the minimal distance exceeds `τ`. -/
theorem c1_checkpoint_matcher_correct (sec : List ℤ) (p : List (Option ℚ)) (s τ : ℚ)
    (hlen : sec.length = p.length)
    (hdef : ∃ i, i < p.length ∧ p.getD i none ≠ none) (hτ : 0 ≤ τ) :
    ∃ j w, j = argmin (diffsTo p s) ∧ j < p.length ∧ p.getD j none = some w ∧
      (∀ i, i < p.length → ∀ v, p.getD i none = some v → |w - s| ≤ |v - s|) ∧
      (∀ i, i < j → ∀ v, p.getD i none = some v → |w - s| < |v - s|) ∧
      chooseSecondForStep sec p s τ =
        (if |w - s| ≤ τ then some (sec.getD j 0) else none) := by
  obtain ⟨i0, hi0, hv0⟩ := hdef
  have hlen' : (diffsTo p s).length = p.length := diffsTo_length p s
  have hne : diffsTo p s ≠ [] := by
    intro h
    rw [h] at hlen'
    simp only [List.length_nil] at hlen'
    omega
  have hjlt : argmin (diffsTo p s) < p.length := hlen' ▸ argmin_lt_length _ hne
  obtain ⟨v0, hv0'⟩ : ∃ v, p.getD i0 none = some v := Option.ne_none_iff_exists'.mp hv0
  have hd0 : (diffsTo p s).getD i0 none = some |v0 - s| := by
    rw [diffsTo_getD, hv0']
    rfl
  have hle0 := argmin_le (diffsTo p s) i0 (by rw [hlen']; exact hi0)
  have hjsome : (diffsTo p s).getD (argmin (diffsTo p s)) none ≠ none := by
    intro hn
    rw [hn, hd0] at hle0
    simp [oLE] at hle0
  obtain ⟨w, hw⟩ : ∃ w, p.getD (argmin (diffsTo p s)) none = some w := by
    rcases hpj : p.getD (argmin (diffsTo p s)) none with _ | w
    · exfalso
      apply hjsome
      rw [diffsTo_getD, hpj]
      rfl
    · exact ⟨w, rfl⟩
  have hdj : (diffsTo p s).getD (argmin (diffsTo p s)) none = some |w - s| := by
    rw [diffsTo_getD, hw]
    rfl
  refine ⟨argmin (diffsTo p s), w, rfl, hjlt, hw, ?_, ?_, ?_⟩
  · intro i hi v hv
    have hle := argmin_le (diffsTo p s) i (by rw [hlen']; exact hi)
    have hdi : (diffsTo p s).getD i none = some |v - s| := by
      rw [diffsTo_getD, hv]
      rfl
    rw [hdj, hdi] at hle
    simpa [oLE] using hle
  · intro i hi v hv
    have hfi := argmin_first (diffsTo p s) i hi
    have hdi : (diffsTo p s).getD i none = some |v - s| := by
      rw [diffsTo_getD, hv]
      rfl
    rw [hdj, hdi] at hfi
    simp only [oLE, decide_eq_false_iff_not, not_le] at hfi
    exact hfi
  · simp only [chooseSecondForStep]
    rw [hdj]

/-- Concrete instantiation of `c1_checkpoint_matcher_correct`. -/
theorem c1_checkpoint_matcher_witness :
    ∃ j w, j = argmin (diffsTo [some 0, some (3/4)] 1) ∧
      j < ([some 0, some (3/4)] : List (Option ℚ)).length ∧
      ([some 0, some (3/4)] : List (Option ℚ)).getD j none = some w ∧
      (∀ i, i < ([some 0, some (3/4)] : List (Option ℚ)).length → ∀ v,
        ([some 0, some (3/4)] : List (Option ℚ)).getD i none = some v →
        |w - 1| ≤ |v - 1|) ∧
      (∀ i, i < j → ∀ v,
        ([some 0, some (3/4)] : List (Option ℚ)).getD i none = some v →
        |w - 1| < |v - 1|) ∧
      chooseSecondForStep [10, 20] [some 0, some (3/4)] 1 (1/2) =
        (if |w - 1| ≤ 1/2 then some (([10, 20] : List ℤ).getD j 0) else none) :=
  c1_checkpoint_matcher_correct [10, 20] [some 0, some (3/4)] 1 (1/2)
    (by decide) ⟨1, by decide, by decide⟩ (by decide)

/-! ### C7: tolerance monotonicity -/

/-- C7: with everything else fixed, any checkpoint matched under a tolerance
`τ1 ≤ τ2` is matched to the same second under `τ2`, and the number of matched
checkpoints never decreases when the tolerance grows. -/
theorem c7_tolerance_monotone (sec : List ℤ) (p : List (Option ℚ)) (steps : List ℚ)
    (τ1 τ2 : ℚ) (hτ : τ1 ≤ τ2) :
    (∀ s k, chooseSecondForStep sec p s τ1 = some k →
      chooseSecondForStep sec p s τ2 = some k) ∧
    (choose_seconds_for_steps sec p steps τ1).countP (fun pr => pr.2.isSome) ≤
      (choose_seconds_for_steps sec p steps τ2).countP (fun pr => pr.2.isSome) := by
  have hmono : ∀ s k, chooseSecondForStep sec p s τ1 = some k →
      chooseSecondForStep sec p s τ2 = some k := by
    intro s k h
    simp only [chooseSecondForStep] at h ⊢
    rcases hd : (diffsTo p s).getD (argmin (diffsTo p s)) none with _ | d
    · rw [hd] at h
      exact Option.noConfusion h
    · simp only [hd] at h ⊢
      by_cases hle : d ≤ τ1
      · rw [if_pos hle] at h
        rw [if_pos (le_trans hle hτ)]
        exact h
      · rw [if_neg hle] at h
        cases h
  refine ⟨hmono, ?_⟩
  simp only [choose_seconds_for_steps, List.countP_map]
  apply List.countP_mono_left
  intro s _ h
  simp only [Function.comp] at h ⊢
  obtain ⟨k, hk⟩ := Option.isSome_iff_exists.mp h
  rw [hmono s k hk]
  rfl

/-- Concrete instantiation of `c7_tolerance_monotone`. -/
theorem c7_tolerance_monotone_witness :
    (∀ s k, chooseSecondForStep [10, 20] [some 0, some (3/4)] s (1/8) = some k →
      chooseSecondForStep [10, 20] [some 0, some (3/4)] s (1/2) = some k) ∧
    (choose_seconds_for_steps [10, 20] [some 0, some (3/4)] [0, 1] (1/8)).countP
        (fun pr => pr.2.isSome) ≤
      (choose_seconds_for_steps [10, 20] [some 0, some (3/4)] [0, 1] (1/2)).countP
        (fun pr => pr.2.isSome) :=
  c7_tolerance_monotone [10, 20] [some 0, some (3/4)] [0, 1] (1/8) (1/2) (by decide)

/-! ### C2/C4: the progress normalizer -/

/-- `x_min` as computed by `progress_between_extremes`. -/
def x_min_of (hx : List (Option ℚ)) : ℚ := listMin (validVals hx)

/-- `x_max` as computed by `progress_between_extremes`. -/
def x_max_of (hx : List (Option ℚ)) : ℚ := listMax (validVals hx)

theorem foldl_min_le_init : ∀ (vs : List ℚ) (a : ℚ), vs.foldl min a ≤ a
  | [], _ => le_refl _
  | w :: vs, a => le_trans (foldl_min_le_init vs (min a w)) (min_le_left a w)

theorem foldl_min_le_mem : ∀ (vs : List ℚ) (a x : ℚ), x ∈ vs → vs.foldl min a ≤ x
  | [], _, _, hx => absurd hx (by simp)
  | w :: vs, a, x, hx => by
    rcases List.mem_cons.mp hx with rfl | hx'
    · exact le_trans (foldl_min_le_init vs (min a x)) (min_le_right a x)
    · exact foldl_min_le_mem vs (min a w) x hx'

theorem init_le_foldl_max : ∀ (vs : List ℚ) (a : ℚ), a ≤ vs.foldl max a
  | [], _ => le_refl _
  | w :: vs, a => le_trans (le_max_left a w) (init_le_foldl_max vs (max a w))

theorem mem_le_foldl_max : ∀ (vs : List ℚ) (a x : ℚ), x ∈ vs → x ≤ vs.foldl max a
  | [], _, _, hx => absurd hx (by simp)
  | w :: vs, a, x, hx => by
    rcases List.mem_cons.mp hx with rfl | hx'
    · exact le_trans (le_max_right a x) (init_le_foldl_max vs (max a x))
    · exact mem_le_foldl_max vs (max a w) x hx'

theorem listMin_le {l : List ℚ} {x : ℚ} (hx : x ∈ l) : listMin l ≤ x := by
  match l, hx with
  | v :: vs, hx =>
    rcases List.mem_cons.mp hx with rfl | hx'
    · exact foldl_min_le_init vs x
    · exact foldl_min_le_mem vs v x hx'

theorem le_listMax {l : List ℚ} {x : ℚ} (hx : x ∈ l) : x ≤ listMax l := by
  match l, hx with
  | v :: vs, hx =>
    rcases List.mem_cons.mp hx with rfl | hx'
    · exact init_le_foldl_max vs x
    · exact mem_le_foldl_max vs v x hx'

theorem getD_map_option (g : ℚ → ℚ) (l : List (Option ℚ)) (i : ℕ) :
    (l.map (Option.map g)).getD i none = Option.map g (l.getD i none) := by
  simp only [List.getD_eq_getElem?_getD, List.getElem?_map]
  cases l[i]? <;> simp

theorem mem_validVals {hx : List (Option ℚ)} {i : ℕ} {x : ℚ}
    (h : hx.getD i none = some x) : x ∈ validVals hx := by
  rw [List.getD_eq_getElem?_getD] at h
  rcases he : hx[i]? with _ | a
  · rw [he] at h
    cases h
  · rw [he] at h
    simp only [Option.getD_some] at h
    subst h
    have hmem : some x ∈ hx := List.getElem?_mem he
    simp only [validVals, List.mem_filterMap]
    exact ⟨some x, hmem, rfl⟩

theorem x_min_lt_x_max_of_not_close {hx : List (Option ℚ)}
    (hval : validVals hx ≠ [])
    (hcl : npIsClose (x_max_of hx) (x_min_of hx) = false) :
    x_min_of hx < x_max_of hx := by
  rcases hv : validVals hx with _ | ⟨v, vs⟩
  · exact absurd hv hval
  have h1 : x_min_of hx ≤ v := by
    rw [x_min_of, hv]
    exact foldl_min_le_init vs v
  have h2 : v ≤ x_max_of hx := by
    rw [x_max_of, hv]
    exact init_le_foldl_max vs v
  rcases lt_or_eq_of_le (le_trans h1 h2) with hlt | heq
  · exact hlt
  · exfalso
    rw [npIsClose, heq] at hcl
    simp only [sub_self, abs_zero, decide_eq_false_iff_not, not_le] at hcl
    have : (0:ℚ) ≤ 1 / 100000000 + |x_max_of hx| / 100000 := by positivity
    linarith

/-- C4: `progress_between_extremes` fails exactly when the series has no
defined value at all or its extremes are equal within `np.isclose`
tolerance; otherwise it returns the progress series with the extremes. -/
theorem c4_degenerate_range_iff (hx : List (Option ℚ)) :
    progress_between_extremes hx = none ↔
      (validVals hx = [] ∨ npIsClose (x_max_of hx) (x_min_of hx) = true) := by
  rcases hv : validVals hx with _ | ⟨v, vs⟩
  · simp [progress_between_extremes, hv]
  · simp only [progress_between_extremes, x_max_of, x_min_of, hv]
    by_cases hc : npIsClose (listMax (v :: vs)) (listMin (v :: vs)) = true
    · simp [hc]
    · simp [hc]

/-- C2: on a non-degenerate head series (some defined value, extremes not
`np.isclose`), the normalizer returns exactly the pointwise-rescaled series
with its extremes; defined entries rescale by
`(x − x_min) / (x_max − x_min)`, undefined entries stay undefined, every
rescaled value lies in `[0,1]`, and the extremes map to exactly `0` and `1`. -/
theorem c2_progress_range_correct (hx : List (Option ℚ))
    (hval : validVals hx ≠ [])
    (hcl : npIsClose (x_max_of hx) (x_min_of hx) = false) :
    progress_between_extremes hx =
      some (hx.map (Option.map fun x => (x - x_min_of hx) / (x_max_of hx - x_min_of hx)),
        x_min_of hx, x_max_of hx) ∧
    x_min_of hx < x_max_of hx ∧
    (∀ i : ℕ,
      (hx.map (Option.map fun x =>
        (x - x_min_of hx) / (x_max_of hx - x_min_of hx))).getD i none =
      Option.map (fun x => (x - x_min_of hx) / (x_max_of hx - x_min_of hx))
        (hx.getD i none)) ∧
    (∀ i : ℕ, ∀ x : ℚ, hx.getD i none = some x →
      0 ≤ (x - x_min_of hx) / (x_max_of hx - x_min_of hx) ∧
      (x - x_min_of hx) / (x_max_of hx - x_min_of hx) ≤ 1 ∧
      (x = x_min_of hx → (x - x_min_of hx) / (x_max_of hx - x_min_of hx) = 0) ∧
      (x = x_max_of hx → (x - x_min_of hx) / (x_max_of hx - x_min_of hx) = 1)) := by
  have hlt : x_min_of hx < x_max_of hx := x_min_lt_x_max_of_not_close hval hcl
  have hd : 0 < x_max_of hx - x_min_of hx := by linarith
  refine ⟨?_, hlt, fun i => getD_map_option _ hx i, ?_⟩
  · rcases hv : validVals hx with _ | ⟨v, vs⟩
    · exact absurd hv hval
    · have hc' : npIsClose (listMax (v :: vs)) (listMin (v :: vs)) = false := by
        simpa only [x_max_of, x_min_of, hv] using hcl
      simp only [progress_between_extremes, x_max_of, x_min_of, hv, hc']
      simp
  · intro i x hix
    have hmem : x ∈ validVals hx := mem_validVals hix
    have h1 : x_min_of hx ≤ x := listMin_le hmem
    have h2 : x ≤ x_max_of hx := le_listMax hmem
    refine ⟨div_nonneg (by linarith) (le_of_lt hd), ?_, ?_, ?_⟩
    · rw [div_le_one hd]
      linarith
    · intro hx0
      rw [hx0, sub_self, zero_div]
    · intro hx1
      rw [hx1, div_self (ne_of_gt hd)]

/-- Concrete instantiation of `c2_progress_range_correct`. -/
theorem c2_progress_range_witness :
    progress_between_extremes [some 0, none, some 2] =
      some (([some 0, none, some 2] : List (Option ℚ)).map (Option.map fun x =>
        (x - x_min_of [some 0, none, some 2]) /
          (x_max_of [some 0, none, some 2] - x_min_of [some 0, none, some 2])),
        x_min_of [some 0, none, some 2], x_max_of [some 0, none, some 2]) ∧
    x_min_of [some 0, none, some 2] < x_max_of [some 0, none, some 2] ∧
    (∀ i : ℕ,
      (([some 0, none, some 2] : List (Option ℚ)).map (Option.map fun x =>
        (x - x_min_of [some 0, none, some 2]) /
          (x_max_of [some 0, none, some 2] - x_min_of [some 0, none, some 2]))).getD i none =
      Option.map (fun x => (x - x_min_of [some 0, none, some 2]) /
          (x_max_of [some 0, none, some 2] - x_min_of [some 0, none, some 2]))
        (([some 0, none, some 2] : List (Option ℚ)).getD i none)) ∧
    (∀ i : ℕ, ∀ x : ℚ, ([some 0, none, some 2] : List (Option ℚ)).getD i none = some x →
      0 ≤ (x - x_min_of [some 0, none, some 2]) /
          (x_max_of [some 0, none, some 2] - x_min_of [some 0, none, some 2]) ∧
      (x - x_min_of [some 0, none, some 2]) /
          (x_max_of [some 0, none, some 2] - x_min_of [some 0, none, some 2]) ≤ 1 ∧
      (x = x_min_of [some 0, none, some 2] →
        (x - x_min_of [some 0, none, some 2]) /
          (x_max_of [some 0, none, some 2] - x_min_of [some 0, none, some 2]) = 0) ∧
      (x = x_max_of [some 0, none, some 2] →
        (x - x_min_of [some 0, none, some 2]) /
          (x_max_of [some 0, none, some 2] - x_min_of [some 0, none, some 2]) = 1)) :=
  c2_progress_range_correct [some 0, none, some 2] (by decide) (by decide)

/-! ### C3: the confidence-weighted head estimator -/

theorem cwaDen_eq_qualifying (w : WideRow) (t : ℚ) :
    ∀ kps : List String, cwaDen w kps t = ((qualifyingCells w kps t).map Prod.snd).sum
  | [] => rfl
  | kp0 :: kps => by
    have ih := cwaDen_eq_qualifying w t kps
    rcases hc : cellOf w kp0 with _ | ⟨x0, y0, c0⟩
    · simpa [cwaDen, qualifyingCells, hc] using ih
    · by_cases ht : t ≤ c0
      · simpa [cwaDen, qualifyingCells, hc, ht] using ih
      · simpa [cwaDen, qualifyingCells, hc, ht] using ih

theorem cwaNum_eq_qualifying (w : WideRow) (t : ℚ) :
    ∀ kps : List String,
      cwaNum w kps t = ((qualifyingCells w kps t).map (fun pc => pc.1 * pc.2)).sum
  | [] => rfl
  | kp0 :: kps => by
    have ih := cwaNum_eq_qualifying w t kps
    rcases hc : cellOf w kp0 with _ | ⟨x0, y0, c0⟩
    · simpa [cwaNum, qualifyingCells, hc] using ih
    · by_cases ht : t ≤ c0
      · simpa [cwaNum, qualifyingCells, hc, ht] using ih
      · simpa [cwaNum, qualifyingCells, hc, ht] using ih

/-- C3: `conf_weighted_avg` averages exactly the keypoints whose confidence
meets the threshold, weighting by confidence with the sum of qualifying
confidences as denominator; it is undefined (not zero) when that denominator
is zero, and a keypoint whose confidence is below the threshold contributes
nothing to either numerator or denominator. -/
theorem c3_conf_weighted_avg_correct (w : WideRow) (head_kps : List String) (t : ℚ)
    (kp : String) (x y c : ℚ) (hc : cellOf w kp = some (x, y, c)) (hlt : c < t) :
    cwaDen w head_kps t = ((qualifyingCells w head_kps t).map Prod.snd).sum ∧
    cwaNum w head_kps t =
      ((qualifyingCells w head_kps t).map (fun pc => pc.1 * pc.2)).sum ∧
    (cwaDen w head_kps t = 0 → conf_weighted_avg_at w head_kps t = none) ∧
    (0 < cwaDen w head_kps t → conf_weighted_avg_at w head_kps t =
      some (((qualifyingCells w head_kps t).map (fun pc => pc.1 * pc.2)).sum /
            ((qualifyingCells w head_kps t).map Prod.snd).sum)) ∧
    cwaNum w (kp :: head_kps) t = cwaNum w head_kps t ∧
    cwaDen w (kp :: head_kps) t = cwaDen w head_kps t ∧
    conf_weighted_avg_at w (kp :: head_kps) t = conf_weighted_avg_at w head_kps t := by
  have hnumskip : cwaNum w (kp :: head_kps) t = cwaNum w head_kps t := by
    simp [cwaNum, hc, not_le.mpr hlt]
  have hdenskip : cwaDen w (kp :: head_kps) t = cwaDen w head_kps t := by
    simp [cwaDen, hc, not_le.mpr hlt]
  refine ⟨cwaDen_eq_qualifying w t head_kps, cwaNum_eq_qualifying w t head_kps,
    ?_, ?_, hnumskip, hdenskip, ?_⟩
  · intro h0
    simp [conf_weighted_avg_at, h0]
  · intro hpos
    rw [conf_weighted_avg_at, if_pos hpos, cwaNum_eq_qualifying, cwaDen_eq_qualifying]
  · rw [conf_weighted_avg_at, conf_weighted_avg_at, hnumskip, hdenskip]

/-- A concrete wide row for the `c3` instantiation: the nose has
confidence `1/10`, the left eye `9/10`. -/
def cw3 : WideRow :=
  { second := 0, person_index := 0, detection_confidence := 1
  , cells := [("nose", (2, 3, 1/10)), ("left_eye", (4, 5, 9/10))] }

/-- Concrete instantiation of `c3_conf_weighted_avg_correct` on a wide row
where the nose cell misses the threshold. -/
theorem c3_conf_weighted_avg_witness :
    cwaDen cw3 ["left_eye"] (1/4) =
      ((qualifyingCells cw3 ["left_eye"] (1/4)).map Prod.snd).sum ∧
    cwaNum cw3 ["left_eye"] (1/4) =
      ((qualifyingCells cw3 ["left_eye"] (1/4)).map (fun pc => pc.1 * pc.2)).sum ∧
    (cwaDen cw3 ["left_eye"] (1/4) = 0 →
      conf_weighted_avg_at cw3 ["left_eye"] (1/4) = none) ∧
    (0 < cwaDen cw3 ["left_eye"] (1/4) →
      conf_weighted_avg_at cw3 ["left_eye"] (1/4) =
      some (((qualifyingCells cw3 ["left_eye"] (1/4)).map (fun pc => pc.1 * pc.2)).sum /
            ((qualifyingCells cw3 ["left_eye"] (1/4)).map Prod.snd).sum)) ∧
    cwaNum cw3 ("nose" :: ["left_eye"]) (1/4) = cwaNum cw3 ["left_eye"] (1/4) ∧
    cwaDen cw3 ("nose" :: ["left_eye"]) (1/4) = cwaDen cw3 ["left_eye"] (1/4) ∧
    conf_weighted_avg_at cw3 ("nose" :: ["left_eye"]) (1/4) =
      conf_weighted_avg_at cw3 ["left_eye"] (1/4) :=
  c3_conf_weighted_avg_correct cw3 ["left_eye"] (1/4) "nose" 2 3 (1/10)
    (by decide) (by decide)

/-! ### C5: the generated checkpoint set -/

theorem rat_floor_eq_intFloor (q : ℚ) : q.floor = ⌊q⌋ := by
  rw [Rat.floor_def', ← Rat.floor_def]

theorem pyRound_nonneg {q : ℚ} (hq : 0 ≤ q) : 0 ≤ pyRound q := by
  have hf : 0 ≤ q.floor := by
    rw [rat_floor_eq_intFloor]
    exact Int.floor_nonneg.mpr hq
  simp only [pyRound]
  split_ifs <;> omega

theorem round10_nonneg {q : ℚ} (hq : 0 ≤ q) : 0 ≤ round10 q := by
  apply div_nonneg _ (by norm_num)
  exact_mod_cast pyRound_nonneg (by positivity)

theorem mem_genSteps {step cp : ℚ} :
    cp ∈ genSteps step ↔ cp ∈ stepsWithOne step := by
  rw [genSteps, (List.perm_insertionSort _ _).mem_iff, List.mem_dedup]

/-- C5 counterexample: for `--step 0.15` the generated checkpoint list
contains `1.05`, which lies outside `[0,1]`: `round(1/0.15) = 7`, and
`round(7·0.15, 10) = 1.05` is kept before `1.0` is appended. -/
theorem c5_steps_counterexample :
    (21/20 : ℚ) ∈ genSteps (3/20) ∧ ¬ ((21/20 : ℚ) ≤ 1) :=
  ⟨by decide, by decide⟩

/-- C5 (amended): for `step ∈ (0,1]` the checkpoint list is sorted
ascending without duplicates, contains both `0` and `1`, and every
checkpoint is nonnegative and is either `1` or `round(i·step, 10)` for some
`i ≤ round(1/step)` — but it need not lie in `[0,1]`. -/
theorem c5_steps_amended (step : ℚ) (h0 : 0 < step) (h1 : step ≤ 1) :
    (genSteps step).Sorted (· ≤ ·) ∧
    (genSteps step).Nodup ∧
    (0 : ℚ) ∈ genSteps step ∧
    (1 : ℚ) ∈ genSteps step ∧
    ∀ cp ∈ genSteps step, 0 ≤ cp ∧ (cp = 1 ∨ cp ∈ stepsBase step) := by
  have hmem_base : ∀ cp ∈ stepsBase step, 0 ≤ cp := by
    intro cp hcp
    rw [stepsBase, List.mem_map] at hcp
    obtain ⟨i, _, rfl⟩ := hcp
    exact round10_nonneg (mul_nonneg (Nat.cast_nonneg i) (le_of_lt h0))
  have hz : round10 (((0:ℕ) : ℚ) * step) = 0 := by
    have hz0 : ((0:ℕ) : ℚ) * step = 0 := by push_cast; ring
    rw [hz0]
    decide
  have h0base : (0 : ℚ) ∈ stepsBase step := by
    rw [stepsBase, List.mem_map]
    exact ⟨0, by simp, hz⟩
  refine ⟨List.sorted_insertionSort _ _,
    (List.perm_insertionSort _ _).symm.nodup (List.nodup_dedup _), ?_, ?_, ?_⟩
  · rw [mem_genSteps, stepsWithOne]
    split_ifs with h
    · exact h0base
    · exact List.mem_append_left _ h0base
  · rw [mem_genSteps, stepsWithOne]
    split_ifs with h
    · exact List.mem_of_mem_getLast? h
    · exact List.mem_append_right _ (by simp)
  · intro cp hcp
    rw [mem_genSteps, stepsWithOne] at hcp
    have : cp = 1 ∨ cp ∈ stepsBase step := by
      rcases em ((stepsBase step).getLast? = some 1) with h | h
      · rw [if_pos h] at hcp
        exact Or.inr hcp
      · rw [if_neg h] at hcp
        rcases List.mem_append.mp hcp with hb | h1
        · exact Or.inr hb
        · exact Or.inl (by simpa using h1)
    rcases this with rfl | hb
    · exact ⟨by norm_num, Or.inl rfl⟩
    · exact ⟨hmem_base cp hb, Or.inr hb⟩

/-- Concrete instantiation of `c5_steps_amended` at `step = 1/10`. -/
theorem c5_steps_amended_witness :
    (genSteps (1/10)).Sorted (· ≤ ·) ∧
    (genSteps (1/10)).Nodup ∧
    (0 : ℚ) ∈ genSteps (1/10) ∧
    (1 : ℚ) ∈ genSteps (1/10) ∧
    ∀ cp ∈ genSteps (1/10), 0 ≤ cp ∧ (cp = 1 ∨ cp ∈ stepsBase (1/10)) :=
  c5_steps_amended (1/10) (by decide) (by decide)

/-! ### C6: the alignment emitter -/

/-- C6: with a non-empty common keypoint vocabulary the emitter produces
exactly `|steps| × |keypoints|` rows — one per `(checkpoint, keypoint)`
pair, matched or not — and on the side where a checkpoint is unmatched the
x/y/confidence fields of the row are the missing-value sentinel `none`. -/
theorem c6_output_shape (df1 df2 : List PoseRow) (wide1 wide2 : List WideRow)
    (hx1 hx2 : List (Option ℚ)) (x1min x1max x2min x2max : ℚ)
    (kp_names : List String) (steps : List ℚ) (chosen1 chosen2 : List (ℚ × Option ℤ))
    (hk : kp_names ≠ []) :
    (emitRows df1 df2 wide1 wide2 hx1 hx2 x1min x1max x2min x2max
        kp_names steps chosen1 chosen2).length = steps.length * kp_names.length ∧
    ∀ r ∈ emitRows df1 df2 wide1 wide2 hx1 hx2 x1min x1max x2min x2max
        kp_names steps chosen1 chosen2,
      (r.file1_second = none →
        r.file1_x = none ∧ r.file1_y = none ∧ r.file1_kp_conf = none) ∧
      (r.file2_second = none →
        r.file2_x = none ∧ r.file2_y = none ∧ r.file2_kp_conf = none) := by
  constructor
  · rw [emitRows, List.length_flatMap]
    simp only [Function.comp_def, List.length_map, List.map_const', List.sum_replicate,
      smul_eq_mul]
  · intro r hr
    rw [emitRows] at hr
    obtain ⟨s, hs, hr2⟩ := List.mem_flatMap.mp hr
    obtain ⟨kp, hkp, rfl⟩ := List.mem_map.mp hr2
    constructor
    · intro h1
      have h1' : dictGet chosen1 s = none := h1
      refine ⟨?_, ?_, ?_⟩ <;> simp [h1', kpFieldsAt]
    · intro h2
      have h2' : dictGet chosen2 s = none := h2
      refine ⟨?_, ?_, ?_⟩ <;> simp [h2', kpFieldsAt]

/-- Concrete instantiation of `c6_output_shape`. -/
theorem c6_output_shape_witness :
    (emitRows [] [] [] [] [] [] 0 1 0 1 ["nose"] [0, 1]
        [(0, none), (1, none)] [(0, none), (1, none)]).length =
      ([0, 1] : List ℚ).length * (["nose"] : List String).length ∧
    ∀ r ∈ emitRows [] [] [] [] [] [] 0 1 0 1 ["nose"] [0, 1]
        [(0, none), (1, none)] [(0, none), (1, none)],
      (r.file1_second = none →
        r.file1_x = none ∧ r.file1_y = none ∧ r.file1_kp_conf = none) ∧
      (r.file2_second = none →
        r.file2_x = none ∧ r.file2_y = none ∧ r.file2_kp_conf = none) :=
  c6_output_shape [] [] [] [] [] [] 0 1 0 1 ["nose"] [0, 1]
    [(0, none), (1, none)] [(0, none), (1, none)] (by decide)

/-! ### C10: duplicate `(second, keypoint_name)` rows abort the run -/

/-- C10: a duplicated `(second, keypoint_name)` pair makes the pivot raise
(`to_wide_per_second = none`) and the whole run abort with no output,
whichever side the duplicate is on; no duplicate row is silently chosen. -/
theorem c10_duplicate_rows_abort (df1 : List PoseRow)
    (hdup : ¬ (pairKeys df1).Nodup) :
    to_wide_per_second df1 = none ∧
    ∀ (df2 : List PoseRow) (cfg : Config),
      mainAlign df1 df2 cfg = none ∧ mainAlign df2 df1 cfg = none := by
  have h1 : to_wide_per_second df1 = none := by
    rw [to_wide_per_second, if_neg hdup]
  refine ⟨h1, fun df2 cfg => ⟨?_, ?_⟩⟩
  · simp only [mainAlign, h1]
    split_ifs <;> rfl
  · cases h2 : to_wide_per_second df2 <;>
      · simp only [mainAlign, h1, h2]
        split_ifs <;> rfl

/-- Concrete instantiation of `c10_duplicate_rows_abort` on a table whose
two rows share `(second, keypoint_name)`. -/
theorem c10_duplicate_rows_witness :
    to_wide_per_second [⟨0, 0, 1, 0, "nose", 1, 2, 1⟩, ⟨0, 0, 1, 0, "nose", 3, 4, 1⟩]
      = none ∧
    ∀ (df2 : List PoseRow) (cfg : Config),
      mainAlign [⟨0, 0, 1, 0, "nose", 1, 2, 1⟩, ⟨0, 0, 1, 0, "nose", 3, 4, 1⟩] df2 cfg
        = none ∧
      mainAlign df2 [⟨0, 0, 1, 0, "nose", 1, 2, 1⟩, ⟨0, 0, 1, 0, "nose", 3, 4, 1⟩] cfg
        = none :=
  c10_duplicate_rows_abort
    [⟨0, 0, 1, 0, "nose", 1, 2, 1⟩, ⟨0, 0, 1, 0, "nose", 3, 4, 1⟩] (by decide)

/-! ### C8: the per-second representative row -/

/-- C8: in the wide frame, `detection_confidence` and `person_index` at a
second present in the long table equal those of the first long-table row
carrying that second. -/
theorem c8_first_row_representative (df : List PoseRow) (ws : List WideRow) (s : ℤ)
    (hm : to_wide_per_second df = some ws) (hs : s ∈ df.map (·.second)) :
    ∃ w r, ws.find? (fun w => w.second == s) = some w ∧
      df.find? (fun r => r.second == s) = some r ∧
      w.detection_confidence = r.detection_confidence ∧
      w.person_index = r.person_index := by
  rw [to_wide_per_second] at hm
  split_ifs at hm with hnd
  · injection hm with hws
    subst hws
    have hsS : s ∈ secondsSorted df := by
      rw [secondsSorted, (List.perm_insertionSort _ _).mem_iff, List.mem_dedup]
      exact hs
    have hwmem : wideRowAt df s ∈ to_wide_rows df := by
      rw [to_wide_rows]
      exact List.mem_map.mpr ⟨s, hsS, rfl⟩
    have hfind1 : ((to_wide_rows df).find? (fun w => w.second == s)).isSome := by
      rw [List.find?_isSome]
      exact ⟨wideRowAt df s, hwmem, by simp [wideRowAt]⟩
    obtain ⟨w, hw⟩ := Option.isSome_iff_exists.mp hfind1
    have hwsec : w.second = s := by
      have := List.find?_some hw
      simpa using this
    have hwform : ∃ s', s' ∈ secondsSorted df ∧ wideRowAt df s' = w := by
      have hmem := List.mem_of_find?_eq_some hw
      rw [to_wide_rows] at hmem
      exact List.mem_map.mp hmem
    obtain ⟨s', _, hws'⟩ := hwform
    have hs'eq : s' = s := by
      have : (wideRowAt df s').second = s' := rfl
      rw [hws'] at this
      rw [← this, hwsec]
    rw [hs'eq] at hws'
    obtain ⟨r0, hr0mem, hr0sec⟩ : ∃ r0 ∈ df, r0.second = s := by
      obtain ⟨r0, hr0, hre⟩ := List.mem_map.mp hs
      exact ⟨r0, hr0, hre⟩
    have hfind2 : (df.find? (fun r => r.second == s)).isSome := by
      rw [List.find?_isSome]
      exact ⟨r0, hr0mem, by simp [hr0sec]⟩
    obtain ⟨r, hr⟩ := Option.isSome_iff_exists.mp hfind2
    refine ⟨w, r, hw, hr, ?_, ?_⟩
    · rw [← hws']
      show ((df.find? (fun r => r.second == s)).map (·.detection_confidence)).getD 0 =
        r.detection_confidence
      rw [hr]
      rfl
    · rw [← hws']
      show ((df.find? (fun r => r.second == s)).map (·.person_index)).getD 0 =
        r.person_index
      rw [hr]
      rfl

/-- Concrete instantiation of `c8_first_row_representative`: two rows at
second `0`; the wide frame carries the first row's metadata. -/
theorem c8_first_row_witness :
    ∃ w r, ((to_wide_rows [⟨0, 3, 1/2, 0, "nose", 1, 2, 1⟩,
        ⟨0, 4, 3/4, 1, "left_eye", 5, 6, 1⟩]).find? (fun w => w.second == 0)) = some w ∧
      (([⟨0, 3, 1/2, 0, "nose", 1, 2, 1⟩, ⟨0, 4, 3/4, 1, "left_eye", 5, 6, 1⟩] :
        List PoseRow).find? (fun r => r.second == 0)) = some r ∧
      w.detection_confidence = r.detection_confidence ∧
      w.person_index = r.person_index :=
  c8_first_row_representative
    [⟨0, 3, 1/2, 0, "nose", 1, 2, 1⟩, ⟨0, 4, 3/4, 1, "left_eye", 5, 6, 1⟩]
    (to_wide_rows [⟨0, 3, 1/2, 0, "nose", 1, 2, 1⟩, ⟨0, 4, 3/4, 1, "left_eye", 5, 6, 1⟩])
    0 (by decide) (by decide)

/-! ### C9: determinism of the pipeline -/

/-- C9: the pipeline is a pure function of the two input tables and the
configuration — two runs over equal inputs and equal configuration produce
equal output (including every intermediate structure, which are all pure
functions of the same arguments). -/
theorem c9_pipeline_deterministic (df1 df2 df1' df2' : List PoseRow)
    (cfg cfg' : Config) (h1 : df1 = df1') (h2 : df2 = df2') (hc : cfg = cfg') :
    mainAlign df1 df2 cfg = mainAlign df1' df2' cfg' := by
  subst h1
  subst h2
  subst hc
  rfl

/-- Concrete instantiation of `c9_pipeline_deterministic`. -/
theorem c9_pipeline_deterministic_witness :
    mainAlign [⟨0, 0, 1, 0, "nose", 1, 2, 1⟩] [⟨0, 0, 1, 0, "nose", 1, 2, 1⟩]
        ⟨1/10, 1/20, ["nose"], 1/4, "conf_weighted_avg"⟩ =
      mainAlign [⟨0, 0, 1, 0, "nose", 1, 2, 1⟩] [⟨0, 0, 1, 0, "nose", 1, 2, 1⟩]
        ⟨1/10, 1/20, ["nose"], 1/4, "conf_weighted_avg"⟩ :=
  c9_pipeline_deterministic _ _ _ _ _ _ rfl rfl rfl
